import Mathlib

/-!
Shallow embedding of the reconciliation and download logic of the
shuffleupagus repository (src/sync.py, src/android/main.py,
src/android/pocketcasts.py), together with theorems settling the
specification claims about it.

Conventions of the embedding:
* machine strings are Lean `String`s; filesystem directories are lists of
  file names (respectively, of (path, completeness) pairs for the crash
  model of the downloader);
* Python dicts keyed by uuid are embedded as association lists built by
  repeated assignment (`dictInsert`), which replaces the value stored at an
  existing key, exactly like `d[k] = v`;
* the network fetch is an oracle `Episode → Except PyErr Nat` (the payload
  bytes are abstracted to a `Nat`); a `requests.get` call that raises is an
  oracle returning `Except.error`.
-/

namespace Shuffleupagus

/-- Errors of the embedded Python fragments: a failed network fetch
(`requests` raising inside `download_episode`) and an `AttributeError`
from a failed attribute lookup. -/
inductive PyErr where
  | fetchError : PyErr
  | attributeError : PyErr
deriving DecidableEq

/-! ### Filename parsing (the scanner's regex) and Python `Path.suffix` -/

/-- Membership in the character class `[a-f0-9-]` of the scanner's
filename regex `([a-f0-9-]+)\..+` (src/sync.py line 168,
src/android/main.py line 164). -/
def isUuidChar (c : Char) : Bool :=
  (('a' ≤ c) && (c ≤ 'f')) || (('0' ≤ c) && (c ≤ '9')) || (c = '-')

/-- The match of `re.match(r"([a-f0-9-]+)\..+", s)` on a list of
characters, returning the capture group when the match succeeds.  The
greedy class run `([a-f0-9-]+)` takes the longest prefix of class
characters (backtracking cannot move the following `\.` earlier, because
no class character is a dot); the regex then requires a literal dot and at
least one further character, which `.` forbids to be a newline.
`re.match` anchors only the start, so trailing characters are free. -/
def parseIdChars (s : List Char) : Option (List Char) :=
  if (s.takeWhile isUuidChar).isEmpty then none
  else
    match s.drop (s.takeWhile isUuidChar).length with
    | '.' :: c :: _ => if c = '\n' then none else some (s.takeWhile isUuidChar)
    | _ => none

/-- uuid recovered from a local file name by the scanner's regex
(`filename_regex.match(file.name)` followed by `.group(1)`). -/
def parseId (s : String) : Option String :=
  (parseIdChars s.data).map fun l => ⟨l⟩

/-- Index of the last `'.'` in a list of characters (Python
`str.rfind('.')`, returning `none` instead of `-1`). -/
def rfindDot : List Char → Option Nat
  | [] => none
  | c :: rest =>
    match rfindDot rest with
    | some j => some (j + 1)
    | none => if c = '.' then some 0 else none

/-- Python `pathlib.PurePath(name).suffix` for a single path segment:
`name[i:]` where `i = name.rfind('.')`, provided `0 < i < len(name) - 1`,
else the empty string. -/
def pySuffix (s : String) : String :=
  match rfindDot s.data with
  | none => ""
  | some i => if 0 < i ∧ i + 1 < s.data.length then ⟨s.data.drop i⟩ else ""

/-! ### The item model (`Episode`, src/sync.py lines 45-74) -/

/-- A remote media item (dataclass `Episode`).  The `url` field is
represented by the last segment of its path (`url.path.segments[-1]`),
the only part of the url the local naming logic reads. -/
structure Episode where
  order : Nat
  uuid : String
  lastSegment : String
  title : String
  podcast : String
deriving DecidableEq

/-- Property `Episode.extension`: the suffix of the last path segment of
the episode's url (src/sync.py lines 60-62). -/
def Episode.extension (e : Episode) : String :=
  pySuffix e.lastSegment

/-- Property `Episode.filename`: `f"{self.uuid}{self.extension}"`
(src/sync.py lines 64-66, src/android/pocketcasts.py lines 41-43). -/
def Episode.filename (e : Episode) : String :=
  e.uuid ++ e.extension

/-- A well-formed remote item: the uuid is a nonempty string over the
scanner's `[a-f0-9-]` class (Pocket Casts uuids are lowercase hex and
dashes), and the url's last path segment carries a real extension that
contains no newline. -/
def ValidEpisode (e : Episode) : Prop :=
  e.uuid.data ≠ [] ∧ (∀ c ∈ e.uuid.data, isUuidChar c = true) ∧
    e.extension ≠ "" ∧ ∀ c ∈ e.extension.data, c ≠ '\n'

instance (e : Episode) : Decidable (ValidEpisode e) := by
  unfold ValidEpisode; infer_instance

/-! ### Round-trip of `parseId` over `Episode.filename` -/

theorem takeWhile_class_append (u rest : List Char)
    (hu : ∀ x ∈ u, isUuidChar x = true) :
    (u ++ '.' :: rest).takeWhile isUuidChar = u := by
  induction u with
  | nil => simp [List.takeWhile_cons, isUuidChar]
  | cons c u ih =>
    have hc : isUuidChar c = true := hu c (List.mem_cons_self c u)
    have ih2 := ih fun x hx => hu x (List.mem_cons_of_mem c hx)
    simp [List.takeWhile_cons, hc, ih2]

theorem parseIdChars_eq (u rest : List Char) (c : Char)
    (hu : ∀ x ∈ u, isUuidChar x = true) (hne : u ≠ []) (hc : c ≠ '\n') :
    parseIdChars (u ++ '.' :: c :: rest) = some u := by
  have hemp : u.isEmpty = false := by
    cases u with
    | nil => exact absurd rfl hne
    | cons a l => rfl
  unfold parseIdChars
  rw [takeWhile_class_append u (c :: rest) hu, List.drop_left]
  simp [hemp, hc]

theorem rfindDot_split (s : List Char) (i : Nat) (h : rfindDot s = some i) :
    ∃ pre post, s = pre ++ '.' :: post ∧ pre.length = i := by
  induction s generalizing i with
  | nil => simp [rfindDot] at h
  | cons c rest ih =>
    unfold rfindDot at h
    cases hr : rfindDot rest with
    | some j =>
      rw [hr] at h
      obtain ⟨pre, post, hsplit, hlen⟩ := ih j hr
      refine ⟨c :: pre, post, by simp [hsplit], ?_⟩
      simp only [Option.some.injEq] at h
      simp [hlen, ← h]
    | none =>
      rw [hr] at h
      by_cases hc : c = '.'
      · subst hc
        have h0 : i = 0 := by simpa using h.symm
        subst h0
        exact ⟨[], rest, rfl, rfl⟩
      · simp [hc] at h

theorem pySuffix_eq_some (s : String) (i : Nat) (hr : rfindDot s.data = some i) :
    pySuffix s
      = if 0 < i ∧ i + 1 < s.data.length then ⟨s.data.drop i⟩ else "" := by
  unfold pySuffix
  rw [hr]

theorem pySuffix_shape (s : String) (h : pySuffix s ≠ "") :
    ∃ c post, (pySuffix s).data = '.' :: c :: post := by
  cases hr : rfindDot s.data with
  | none => exact absurd (by unfold pySuffix; rw [hr]) h
  | some i =>
    have heq := pySuffix_eq_some s i hr
    by_cases hcond : 0 < i ∧ i + 1 < s.data.length
    · obtain ⟨pre, post, hsplit, hlen⟩ := rfindDot_split s.data i hr
      have hdrop : s.data.drop i = '.' :: post := by
        rw [hsplit, ← hlen, List.drop_left]
      cases post with
      | nil =>
        exfalso
        have hlt : i + 1 < s.data.length := hcond.2
        rw [hsplit] at hlt
        simp only [List.length_append, List.length_cons, List.length_nil,
          hlen] at hlt
        omega
      | cons c' post' =>
        refine ⟨c', post', ?_⟩
        rw [heq, if_pos hcond]
        exact hdrop
    · rw [heq, if_neg hcond] at h
      exact absurd rfl h

theorem String.data_app (s t : String) : (s ++ t).data = s.data ++ t.data := by
  cases s; cases t; rfl

/-- Core round trip: parsing a valid episode's canonical filename with the
scanner's regex recovers exactly the episode's uuid. -/
theorem parseId_filename (e : Episode) (h : ValidEpisode e) :
    parseId e.filename = some e.uuid := by
  obtain ⟨hne, hclass, hext, hnl⟩ := h
  obtain ⟨c, post, hshape⟩ := pySuffix_shape e.lastSegment hext
  have hcmem : c ∈ (Episode.extension e).data := by
    show c ∈ (pySuffix e.lastSegment).data
    rw [hshape]
    simp
  have hc : c ≠ '\n' := hnl c hcmem
  have hdata : (Episode.filename e).data
      = e.uuid.data ++ '.' :: c :: post := by
    show (e.uuid ++ e.extension).data = _
    rw [String.data_app]
    unfold Episode.extension
    rw [hshape]
  unfold parseId
  rw [hdata, parseIdChars_eq e.uuid.data post c hclass hne hc]
  rfl

/-! ### Python dicts as association lists -/

section Dict

variable {α : Type} {β : Type} [DecidableEq α]

/-- Python dict assignment `d[k] = v`: replaces the value stored at an
existing key (keeping its position), otherwise appends a new binding at
the end. -/
def dictInsert (k : α) (v : β) : List (α × β) → List (α × β)
  | [] => [(k, v)]
  | (k', v') :: d => if k' = k then (k, v) :: d else (k', v') :: dictInsert k v d

/-- Python dict lookup `d[k]` (as an `Option`). -/
def dictLookup (k : α) : List (α × β) → Option β
  | [] => none
  | (k', v') :: d => if k' = k then some v' else dictLookup k d

theorem mem_dictInsert {k : α} {v : β} {d : List (α × β)} {p : α × β}
    (h : p ∈ dictInsert k v d) : p = (k, v) ∨ p ∈ d := by
  induction d with
  | nil => simpa [dictInsert] using h
  | cons q d ih =>
    obtain ⟨k', v'⟩ := q
    by_cases hk : k' = k
    · rw [dictInsert, if_pos hk] at h
      rcases List.mem_cons.mp h with h1 | h2
      · exact Or.inl h1
      · exact Or.inr (List.mem_cons_of_mem _ h2)
    · rw [dictInsert, if_neg hk] at h
      rcases List.mem_cons.mp h with h1 | h2
      · exact Or.inr (h1 ▸ List.mem_cons_self _ _)
      · rcases ih h2 with h3 | h4
        · exact Or.inl h3
        · exact Or.inr (List.mem_cons_of_mem _ h4)

theorem keys_dictInsert (k : α) (v : β) (d : List (α × β)) :
    ((dictInsert k v d).map Prod.fst).toFinset
      = insert k ((d.map Prod.fst).toFinset) := by
  induction d with
  | nil => simp [dictInsert]
  | cons q d ih =>
    obtain ⟨k', v'⟩ := q
    by_cases hk : k' = k
    · subst hk
      simp [dictInsert]
    · rw [dictInsert, if_neg hk]
      simp only [List.map_cons, List.toFinset_cons, ih]
      ext a
      simp
      tauto

theorem dictLookup_dictInsert_self (k : α) (v : β) (d : List (α × β)) :
    dictLookup k (dictInsert k v d) = some v := by
  induction d with
  | nil => simp [dictInsert, dictLookup]
  | cons q d ih =>
    obtain ⟨k', v'⟩ := q
    by_cases hk : k' = k
    · rw [dictInsert, if_pos hk, dictLookup, if_pos rfl]
    · rw [dictInsert, if_neg hk, dictLookup, if_neg hk]
      exact ih

theorem keysNodup_dictInsert {k : α} {v : β} {d : List (α × β)}
    (h : (d.map Prod.fst).Nodup) :
    ((dictInsert k v d).map Prod.fst).Nodup := by
  induction d with
  | nil => simp [dictInsert]
  | cons q d ih =>
    obtain ⟨k', v'⟩ := q
    simp only [List.map_cons, List.nodup_cons] at h
    by_cases hk : k' = k
    · rw [dictInsert, if_pos hk]
      simp only [List.map_cons, List.nodup_cons]
      exact ⟨hk ▸ h.1, h.2⟩
    · rw [dictInsert, if_neg hk]
      simp only [List.map_cons, List.nodup_cons]
      refine ⟨?_, ih h.2⟩
      intro hmem
      rcases List.mem_map.mp hmem with ⟨p, hp, hfst⟩
      rcases mem_dictInsert hp with h1 | h2
      · exact hk (by rw [h1] at hfst; exact hfst.symm ▸ rfl)
      · exact h.1 (List.mem_map.mpr ⟨p, h2, hfst⟩)

end Dict

/-! ### Local inventory scanner and remote dict (src/sync.py lines 158-174) -/

/-- Processing of one directory entry by the scanner loop
(src/sync.py lines 169-174): a file whose name matches the regex is
assigned into `ipod_by_uuid` under its parsed uuid; an unparsable file is
logged and skipped. -/
def scanStep (d : List (String × String)) (f : String) : List (String × String) :=
  match parseId f with
  | some u => dictInsert u f d
  | none => d

/-- The dict `ipod_by_uuid` built by scanning the music directory, given
the directory listing (file names in iteration order). -/
def ipod_by_uuid (files : List String) : List (String × String) :=
  files.foldl scanStep []

/-- One step of the dict comprehension building `pocketcasts_by_uuid`
(src/sync.py lines 158-162, src/android/main.py lines 155-158): each
episode is assigned under its uuid, so a duplicated uuid is overwritten
by the later occurrence. -/
def pcStep (d : List (String × Episode)) (e : Episode) : List (String × Episode) :=
  dictInsert e.uuid e d

/-- The dict `pocketcasts_by_uuid` of remote episodes keyed by uuid. -/
def pocketcasts_by_uuid (eps : List Episode) : List (String × Episode) :=
  eps.foldl pcStep []

/-- Key set of the scanner's dict: `uuids_on_ipod` (src/sync.py line 177). -/
def localIds (files : List String) : Finset String :=
  ((ipod_by_uuid files).map Prod.fst).toFinset

/-- Key set of the remote dict: `uuids_from_pocketcasts`
(src/sync.py line 178). -/
def remoteIds (eps : List Episode) : Finset String :=
  ((pocketcasts_by_uuid eps).map Prod.fst).toFinset

theorem mem_scanFold (files : List String) :
    ∀ (d : List (String × String)) (p : String × String),
      p ∈ files.foldl scanStep d →
      p ∈ d ∨ (p.2 ∈ files ∧ parseId p.2 = some p.1) := by
  induction files with
  | nil => intro d p h; exact Or.inl h
  | cons f fs ih =>
    intro d p h
    rw [List.foldl_cons] at h
    rcases ih (scanStep d f) p h with h1 | h2
    · unfold scanStep at h1
      cases hp : parseId f with
      | some u =>
        rw [hp] at h1
        rcases mem_dictInsert h1 with h3 | h4
        · right
          refine ⟨?_, ?_⟩
          · rw [h3]; exact List.mem_cons_self _ _
          · rw [h3]; simpa using hp
        · exact Or.inl h4
      | none => rw [hp] at h1; exact Or.inl h1
    · exact Or.inr ⟨List.mem_cons_of_mem _ h2.1, h2.2⟩

theorem scan_mem {files : List String} {u f : String}
    (h : (u, f) ∈ ipod_by_uuid files) : f ∈ files ∧ parseId f = some u := by
  rcases mem_scanFold files [] (u, f) h with h1 | h2
  · simp at h1
  · exact h2

theorem keys_scanFold (files : List String) :
    ∀ d : List (String × String),
      ((files.foldl scanStep d).map Prod.fst).toFinset
        = (d.map Prod.fst).toFinset ∪ (files.filterMap parseId).toFinset := by
  induction files with
  | nil => intro d; simp
  | cons f fs ih =>
    intro d
    rw [List.foldl_cons, ih (scanStep d f)]
    unfold scanStep
    cases hp : parseId f with
    | some u =>
      rw [keys_dictInsert, List.filterMap_cons_some hp, List.toFinset_cons,
        Finset.insert_union, Finset.union_insert]
    | none =>
      rw [List.filterMap_cons_none hp]

theorem mem_localIds {files : List String} {u : String} :
    u ∈ localIds files ↔ ∃ f ∈ files, parseId f = some u := by
  unfold localIds ipod_by_uuid
  rw [keys_scanFold files []]
  simp

theorem scan_complete {files : List String} {u : String}
    (h : u ∈ localIds files) : ∃ f, (u, f) ∈ ipod_by_uuid files := by
  unfold localIds at h
  rw [List.mem_toFinset] at h
  rcases List.mem_map.mp h with ⟨p, hp, hfst⟩
  refine ⟨p.2, ?_⟩
  rw [← hfst, Prod.mk.eta]
  exact hp

theorem mem_pcFold (eps : List Episode) :
    ∀ (d : List (String × Episode)) (p : String × Episode),
      p ∈ eps.foldl pcStep d →
      p ∈ d ∨ (p.2 ∈ eps ∧ p.2.uuid = p.1) := by
  induction eps with
  | nil => intro d p h; exact Or.inl h
  | cons e es ih =>
    intro d p h
    rw [List.foldl_cons] at h
    rcases ih (pcStep d e) p h with h1 | h2
    · unfold pcStep at h1
      rcases mem_dictInsert h1 with h3 | h4
      · right
        refine ⟨?_, ?_⟩
        · rw [h3]; exact List.mem_cons_self _ _
        · rw [h3]
      · exact Or.inl h4
    · exact Or.inr ⟨List.mem_cons_of_mem _ h2.1, h2.2⟩

theorem pc_mem {eps : List Episode} {u : String} {e : Episode}
    (h : (u, e) ∈ pocketcasts_by_uuid eps) : e ∈ eps ∧ e.uuid = u := by
  rcases mem_pcFold eps [] (u, e) h with h1 | h2
  · simp at h1
  · exact h2

theorem keys_pcFold (eps : List Episode) :
    ∀ d : List (String × Episode),
      ((eps.foldl pcStep d).map Prod.fst).toFinset
        = (d.map Prod.fst).toFinset ∪ (eps.map Episode.uuid).toFinset := by
  induction eps with
  | nil => intro d; simp
  | cons e es ih =>
    intro d
    rw [List.foldl_cons, ih (pcStep d e)]
    unfold pcStep
    rw [keys_dictInsert, List.map_cons, List.toFinset_cons,
      Finset.insert_union, Finset.union_insert]

theorem mem_remoteIds {eps : List Episode} {u : String} :
    u ∈ remoteIds eps ↔ ∃ e ∈ eps, e.uuid = u := by
  unfold remoteIds pocketcasts_by_uuid
  rw [keys_pcFold eps []]
  simp

theorem pc_complete {eps : List Episode} {u : String}
    (h : u ∈ remoteIds eps) : ∃ e, (u, e) ∈ pocketcasts_by_uuid eps := by
  unfold remoteIds at h
  rw [List.mem_toFinset] at h
  rcases List.mem_map.mp h with ⟨p, hp, hfst⟩
  refine ⟨p.2, ?_⟩
  rw [← hfst, Prod.mk.eta]
  exact hp

/-! ### The reconciliation plan (src/sync.py lines 177-186) -/

/-- `uuids_to_delete = uuids_on_ipod - uuids_from_pocketcasts`
(src/sync.py line 180). -/
def uuids_to_delete (eps : List Episode) (files : List String) : Finset String :=
  localIds files \ remoteIds eps

/-- `uuids_to_download = uuids_from_pocketcasts - uuids_on_ipod`
(src/sync.py line 181). -/
def uuids_to_download (eps : List Episode) (files : List String) : Finset String :=
  remoteIds eps \ localIds files

/-- The ids present both remotely and locally.  The code never
materializes this set: such files are simply left untouched. -/
def keptIds (eps : List Episode) (files : List String) : Finset String :=
  remoteIds eps ∩ localIds files

/-- The ids for which the run performs a rename.  The sync procedure
(src/sync.py lines 177-204, src/android/main.py lines 173-198) only ever
deletes files and downloads new ones; no rename operation exists in the
source, so this set is empty for every input. -/
def renamedIds (_eps : List Episode) (_files : List String) : Finset String :=
  ∅

/-- The file names unlinked by the deletion loop (src/sync.py lines
183-184): for each uuid in `uuids_to_delete`, the file recorded for it in
`ipod_by_uuid` is unlinked. -/
def deletedNames (eps : List Episode) (files : List String) : List String :=
  (ipod_by_uuid files).filterMap fun uf =>
    if uf.1 ∈ uuids_to_delete eps files then some uf.2 else none

/-- `episodes_to_download = [pocketcasts_by_uuid[uuid] for uuid in
uuids_to_download]` (src/sync.py line 186); the iteration order over the
Python set is arbitrary, embedded here as the dict's key order. -/
def episodes_to_download (eps : List Episode) (files : List String) : List Episode :=
  (pocketcasts_by_uuid eps).filterMap fun ue =>
    if ue.1 ∈ uuids_to_download eps files then some ue.2 else none

/-! ### The executor (src/sync.py lines 122-141 and 183-204) -/

/-- Outcome of `download_episode` (src/sync.py lines 122-141).  The
oracle `fetch` models the item's whole fallible pipeline inside the try
block — the `requests.get`, the temp-file write, and the `speedup`
transcode (ffmpeg itself fails deterministically for some outputs, e.g. a
destination name without a usable extension, so an oracle value must be
realizable for the item's canonical name).  Any exception raised by the
pipeline is caught and reported as `(False, episode)`; otherwise the
canonical file has been written and the outcome is `(True, episode)`. -/
def download_episode (fetch : Episode → Except PyErr Nat) (e : Episode) :
    Bool × Episode :=
  match fetch e with
  | Except.ok _ => (true, e)
  | Except.error _ => (false, e)

/-- The canonical file names materialized by the download phase: one per
scheduled episode whose `download_episode` outcome is a success. -/
def writtenNames (eps : List Episode) (fetch : Episode → Except PyErr Nat)
    (files : List String) : List String :=
  (episodes_to_download eps files).filterMap fun e =>
    if (download_episode fetch e).1 then some e.filename else none

/-- The directory entries that survive phase 1 (everything except the
unlinked files). -/
def keptFiles (eps : List Episode) (files : List String) : List String :=
  files.filter fun f => decide (f ∉ deletedNames eps files)

/-- The directory listing after a full run: phase 1 unlinks the stale
files, then the download phase materializes the canonical name of each
successfully fetched episode (writing to an existing name overwrites the
file rather than adding a second entry). -/
def executeDir (eps : List Episode) (fetch : Episode → Except PyErr Nat)
    (files : List String) : List String :=
  keptFiles eps files ++
    ((writtenNames eps fetch files).dedup.filter fun n =>
      decide (n ∉ keptFiles eps files))

/-! ### Membership lemmas for the plan and the executor -/

theorem mem_keptFiles {eps : List Episode} {files : List String} {f : String} :
    f ∈ keptFiles eps files ↔ f ∈ files ∧ f ∉ deletedNames eps files := by
  simp [keptFiles]

theorem mem_deletedNames {eps : List Episode} {files : List String} {g : String} :
    g ∈ deletedNames eps files
      ↔ ∃ u, (u, g) ∈ ipod_by_uuid files ∧ u ∈ uuids_to_delete eps files := by
  unfold deletedNames
  rw [List.mem_filterMap]
  constructor
  · rintro ⟨⟨u, f⟩, hmem, heq⟩
    by_cases hc : u ∈ uuids_to_delete eps files
    · simp only [hc, if_true] at heq
      rw [Option.some.injEq] at heq
      subst heq
      exact ⟨u, hmem, hc⟩
    · simp [hc] at heq
  · rintro ⟨u, hmem, hc⟩
    exact ⟨(u, g), hmem, by simp [hc]⟩

theorem mem_episodes_to_download {eps : List Episode} {files : List String}
    {e : Episode} :
    e ∈ episodes_to_download eps files
      ↔ ∃ u, (u, e) ∈ pocketcasts_by_uuid eps
          ∧ u ∈ uuids_to_download eps files := by
  unfold episodes_to_download
  rw [List.mem_filterMap]
  constructor
  · rintro ⟨⟨u, e'⟩, hmem, heq⟩
    by_cases hc : u ∈ uuids_to_download eps files
    · rw [if_pos hc] at heq
      rw [Option.some.injEq] at heq
      exact ⟨u, heq ▸ hmem, hc⟩
    · rw [if_neg hc] at heq
      exact absurd heq (by simp)
  · rintro ⟨u, hmem, hc⟩
    exact ⟨(u, e), hmem, by rw [if_pos hc]⟩

theorem mem_writtenNames {eps : List Episode} {files : List String}
    {fetch : Episode → Except PyErr Nat} {n : String} :
    n ∈ writtenNames eps fetch files
      ↔ ∃ e ∈ episodes_to_download eps files,
          (download_episode fetch e).1 = true ∧ n = e.filename := by
  unfold writtenNames
  rw [List.mem_filterMap]
  constructor
  · rintro ⟨e, hmem, heq⟩
    by_cases hc : (download_episode fetch e).1
    · rw [if_pos hc] at heq
      rw [Option.some.injEq] at heq
      exact ⟨e, hmem, hc, heq.symm⟩
    · rw [if_neg hc] at heq
      exact absurd heq (by simp)
  · rintro ⟨e, hmem, hc, heq⟩
    exact ⟨e, hmem, by rw [if_pos hc, heq]⟩

theorem mem_executeDir {eps : List Episode} {files : List String}
    {fetch : Episode → Except PyErr Nat} {h : String}
    (hmem : h ∈ executeDir eps fetch files) :
    h ∈ keptFiles eps files ∨ h ∈ writtenNames eps fetch files := by
  rcases List.mem_append.mp hmem with h1 | h2
  · exact Or.inl h1
  · right
    have := List.mem_filter.mp h2
    exact List.mem_dedup.mp this.1

theorem written_in_executeDir {eps : List Episode} {files : List String}
    {fetch : Episode → Except PyErr Nat} {n : String}
    (h : n ∈ writtenNames eps fetch files) :
    n ∈ executeDir eps fetch files := by
  by_cases hk : n ∈ keptFiles eps files
  · exact List.mem_append.mpr (Or.inl hk)
  · refine List.mem_append.mpr (Or.inr ?_)
    rw [List.mem_filter]
    exact ⟨List.mem_dedup.mpr h, by simpa using hk⟩

theorem kept_in_executeDir {eps : List Episode} {files : List String}
    {fetch : Episode → Except PyErr Nat} {f : String}
    (h : f ∈ keptFiles eps files) :
    f ∈ executeDir eps fetch files :=
  List.mem_append.mpr (Or.inl h)

/-! ### Semantic lemmas about a full run -/

theorem parse_of_deletedNames {eps : List Episode} {files : List String}
    {g : String} (h : g ∈ deletedNames eps files) :
    ∃ u, parseId g = some u ∧ u ∈ uuids_to_delete eps files
      ∧ (u, g) ∈ ipod_by_uuid files := by
  rcases mem_deletedNames.mp h with ⟨u, hmem, hdel⟩
  exact ⟨u, (scan_mem hmem).2, hdel, hmem⟩

theorem parse_of_writtenNames {eps : List Episode} {files : List String}
    {fetch : Episode → Except PyErr Nat} {n : String}
    (hv : ∀ e ∈ eps, ValidEpisode e) (h : n ∈ writtenNames eps fetch files) :
    ∃ u, parseId n = some u ∧ u ∈ uuids_to_download eps files := by
  rcases mem_writtenNames.mp h with ⟨e, hmem, -, heq⟩
  rcases mem_episodes_to_download.mp hmem with ⟨u, hpc, hdl⟩
  have he := pc_mem hpc
  refine ⟨u, ?_, hdl⟩
  rw [heq, parseId_filename e (hv e he.1), he.2]

theorem dict_file_kept {eps : List Episode} {files : List String}
    {u g : String} (hu : u ∈ remoteIds eps)
    (hp : (u, g) ∈ ipod_by_uuid files) : g ∈ keptFiles eps files := by
  rw [mem_keptFiles]
  refine ⟨(scan_mem hp).1, ?_⟩
  intro hg
  rcases parse_of_deletedNames hg with ⟨u', hparse, hdel, -⟩
  have : u' = u := by
    have h2 := (scan_mem hp).2
    rw [hparse] at h2
    exact (Option.some.injEq _ _ ▸ h2 :)
  subst this
  exact (Finset.mem_sdiff.mp hdel).2 hu

theorem deleted_not_in_executeDir {eps : List Episode} {files : List String}
    {fetch : Episode → Except PyErr Nat} {g : String}
    (hv : ∀ e ∈ eps, ValidEpisode e) (h : g ∈ deletedNames eps files) :
    g ∉ executeDir eps fetch files := by
  intro hmem
  rcases mem_executeDir hmem with hk | hw
  · exact (mem_keptFiles.mp hk).2 h
  · rcases parse_of_deletedNames h with ⟨u, hparse, hdel, -⟩
    rcases parse_of_writtenNames hv hw with ⟨u', hparse', hdl'⟩
    rw [hparse] at hparse'
    have : u = u' := Option.some.injEq _ _ ▸ hparse'
    subst this
    exact (Finset.mem_sdiff.mp hdl').2 (Finset.mem_sdiff.mp hdel).1

theorem exec_localIds {eps : List Episode} {files : List String}
    {fetch : Episode → Except PyErr Nat}
    (hv : ∀ e ∈ eps, ValidEpisode e)
    (hinj : ∀ f g u, f ∈ files → g ∈ files → parseId f = some u →
      parseId g = some u → f = g)
    (hok : ∀ e, ∃ m, fetch e = Except.ok m) :
    localIds (executeDir eps fetch files) = remoteIds eps := by
  apply Finset.Subset.antisymm
  · intro u hu
    rcases mem_localIds.mp hu with ⟨h, hmem, hparse⟩
    rcases mem_executeDir hmem with hk | hw
    · rcases mem_keptFiles.mp hk with ⟨hfiles, hnotdel⟩
      by_contra hnr
      have hL : u ∈ localIds files := mem_localIds.mpr ⟨h, hfiles, hparse⟩
      have hdel : u ∈ uuids_to_delete eps files := Finset.mem_sdiff.mpr ⟨hL, hnr⟩
      rcases scan_complete hL with ⟨g, hg⟩
      have hgdel : g ∈ deletedNames eps files := mem_deletedNames.mpr ⟨u, hg, hdel⟩
      have hgfiles := (scan_mem hg).1
      have hgparse := (scan_mem hg).2
      have : h = g := hinj h g u hfiles hgfiles hparse hgparse
      subst this
      exact hnotdel hgdel
    · rcases parse_of_writtenNames hv hw with ⟨u', hparse', hdl'⟩
      rw [hparse] at hparse'
      have : u = u' := Option.some.injEq _ _ ▸ hparse'
      subst this
      exact (Finset.mem_sdiff.mp hdl').1
  · intro u hu
    by_cases hL : u ∈ localIds files
    · rcases scan_complete hL with ⟨g, hg⟩
      have hk : g ∈ keptFiles eps files := dict_file_kept hu hg
      exact mem_localIds.mpr ⟨g, kept_in_executeDir hk, (scan_mem hg).2⟩
    · have hdl : u ∈ uuids_to_download eps files := Finset.mem_sdiff.mpr ⟨hu, hL⟩
      rcases pc_complete hu with ⟨e, hpc⟩
      have he := pc_mem hpc
      have hed : e ∈ episodes_to_download eps files :=
        mem_episodes_to_download.mpr ⟨u, hpc, hdl⟩
      have hsucc : (download_episode fetch e).1 = true := by
        rcases hok e with ⟨m, hm⟩
        unfold download_episode
        rw [hm]
      have hwn : e.filename ∈ writtenNames eps fetch files :=
        mem_writtenNames.mpr ⟨e, hed, hsucc, rfl⟩
      have hparse : parseId e.filename = some u := by
        rw [parseId_filename e (hv e he.1), he.2]
      exact mem_localIds.mpr ⟨e.filename, written_in_executeDir hwn, hparse⟩

/-! ### Crash model of `download_episode` (src/sync.py lines 122-141) -/

/-- A filesystem location: the directory it lives in and the file name. -/
structure PathName where
  dir : String
  name : String
deriving DecidableEq

/-- Default POSIX location used by `tempfile.NamedTemporaryFile()` when no
`dir` argument is given (Python `tempfile.gettempdir()`). -/
def TMP_DIR : String := "/tmp"

/-- The configured storage directory `MUSIC_DIR = Path('music')`
(src/sync.py line 38). -/
def MUSIC_DIR : String := "music"

/-- The canonical destination `episode.path = MUSIC_DIR / episode.filename`
(src/sync.py lines 68-70). -/
def canonPath (e : Episode) : PathName :=
  ⟨MUSIC_DIR, e.filename⟩

/-- The temporary file created by `tempfile.NamedTemporaryFile(delete=False)`
(src/sync.py line 125): it lives in the system temp directory. -/
def tempPath (tmp : String) : PathName :=
  ⟨TMP_DIR, tmp⟩

/-- Snapshots of the files materialized by `download_episode` at each
crash point, as (path, complete?) pairs, in program order:
state 0 — while fetching (src/sync.py line 124), nothing written yet;
state 1 — after the temp write completes (lines 125-127);
state 2 — while `speedup` (line 129) runs: ffmpeg writes its output
directly at the canonical path, so a partially written file sits there;
state 3 — after the transcode completes;
state 4 — after the `finally` block unlinks the temp file (line 137). -/
def dlCrashStates (e : Episode) (tmp : String) : List (List (PathName × Bool)) :=
  [ [],
    [(tempPath tmp, true)],
    [(tempPath tmp, true), (canonPath e, false)],
    [(tempPath tmp, true), (canonPath e, true)],
    [(canonPath e, true)] ]

/-! ### The android variant (src/android/pocketcasts.py lines 99-118) -/

/-- Embedded Python semantics: the `os.path` module defines no attribute
`rename` (the rename function lives on `os`, not `os.path`), so evaluating
the callee expression `os.path.rename` at src/android/pocketcasts.py
line 107 raises `AttributeError` — and Python evaluates the callee before
the arguments, so this is the first error of that statement. -/
def osPathRename : Except PyErr Unit :=
  Except.error PyErr.attributeError

/-- The android `download_episode` (src/android/pocketcasts.py lines
99-118): fetch, write the bytes to a temp file in the system temp
directory, then move it into place with `os.path.rename`; any exception
is caught and reported as `(False, episode)`.  The second component lists
the files the call places at the canonical path (the temp file is
unlinked by the `finally` block either way). -/
def android_download_episode (fetch : Episode → Except PyErr Nat)
    (e : Episode) : (Bool × Episode) × List PathName :=
  match fetch e with
  | Except.error _ => ((false, e), [])
  | Except.ok _ =>
    match osPathRename with
    | Except.error _ => ((false, e), [])
    | Except.ok _ => ((true, e), [canonPath e])

/-! ### Concrete fixtures for witnesses and counterexamples -/

/-- A well-formed episode: uuid `ab`, source url ending in `x.mp3`. -/
def epA : Episode :=
  ⟨0, "ab", "x.mp3", "t", "p"⟩

/-- A second well-formed episode with a different uuid. -/
def epC : Episode :=
  ⟨0, "aa", "x.mp3", "t1", "p"⟩

/-- An episode sharing `epC`'s uuid but no other field. -/
def epC2 : Episode :=
  ⟨1, "aa", "y.ogg", "t2", "p"⟩

/-- A degenerate episode whose url's last segment has no suffix, so its
canonical filename `ab` has no extension and cannot be parsed back. -/
def epBad : Episode :=
  ⟨0, "ab", "x", "t", "p"⟩

/-- An episode whose uuid `ab.cd` contains a dot, so its canonical
filename `ab.cd.mp3` (again a writable mp3 name) parses back to the
DIFFERENT uuid `ab`. -/
def epDot : Episode :=
  ⟨0, "ab.cd", "x.mp3", "t", "p"⟩

/-- A fetch oracle that always succeeds. -/
def fetchOkAll : Episode → Except PyErr Nat :=
  fun _ => Except.ok 0

/-- A fetch oracle failing exactly on uuid `aa`. -/
def fetchFailAa : Episode → Except PyErr Nat :=
  fun e => if e.uuid = "aa" then Except.error PyErr.fetchError else Except.ok 0

theorem keysNodup_pcFold (eps : List Episode) :
    ∀ d : List (String × Episode), (d.map Prod.fst).Nodup →
      ((eps.foldl pcStep d).map Prod.fst).Nodup := by
  induction eps with
  | nil => intro d h; exact h
  | cons e es ih =>
    intro d h
    rw [List.foldl_cons]
    exact ih _ (keysNodup_dictInsert h)

/-! ### Claim theorems -/

/-- C1: for every valid remote item (an `Episode` whose uuid is a
nonempty string over the scanner's character class and whose source url's
last path segment carries a proper extension), parsing the item's
generated canonical filename with the scanner's parse pattern recovers
exactly the item's uuid: `parseId (filename item) = some item.uuid`. -/
theorem c1_filename_round_trip (e : Episode) (h : ValidEpisode e) :
    parseId e.filename = some e.uuid :=
  parseId_filename e h

theorem c1_filename_round_trip_witness :
    ValidEpisode epA ∧ parseId (Episode.filename epA) = some epA.uuid :=
  ⟨by decide, c1_filename_round_trip epA (by decide)⟩

/-- C7 counterexample: the canonical filename of the concrete valid item
`epA` (order 0, uuid `ab`, extension `.mp3`) is `ab.mp3`, which is not of
the claimed shape zero-padded(order) ++ "_" ++ uuid ++ extension for any
digit padding: the code puts no order prefix into the filename. -/
theorem c7_counterexample :
    ¬ ∃ pad : String, (∀ c ∈ pad.data, c.isDigit = true) ∧
      Episode.filename epA = pad ++ "_" ++ epA.uuid ++ Episode.extension epA := by
  rintro ⟨pad, -, h⟩
  have hlen := congrArg String.length h
  rw [String.length_append, String.length_append, String.length_append] at hlen
  have h1 : (Episode.filename epA).length = 6 := by decide
  have h2 : ("_" : String).length = 1 := by decide
  have h3 : epA.uuid.length = 2 := by decide
  have h4 : (Episode.extension epA).length = 4 := by decide
  rw [h1, h2, h3, h4] at hlen
  omega

/-- C7 amended: the canonical filename is the item's uuid immediately
followed by the extension (the suffix of the url's last path segment);
the order position does not appear in the filename at all. -/
theorem c7_amended (e : Episode) :
    Episode.filename e = e.uuid ++ Episode.extension e :=
  rfl

/-- C3 counterexample: for the remote sequence `[epC, epC2]`, whose two
records share the uuid `aa` but differ in every other field, the
reconciliation dict maps `aa` to `epC2` — the LAST occurrence — not to
the first occurrence `epC` as the claim states. -/
theorem c3_counterexample :
    dictLookup "aa" (pocketcasts_by_uuid [epC, epC2]) = some epC2 ∧
      dictLookup "aa" (pocketcasts_by_uuid [epC, epC2]) ≠ some epC :=
  ⟨by decide, by decide⟩

/-- C3 amended: an id occurring more than once in the remote sequence is
treated as a single logical item without crashing, but its fields are
taken from the LAST occurrence in the sequence (each occurrence
overwrites the previous one, as Python dict comprehensions do): appending
an episode to any remote sequence makes its record the one stored under
its uuid, and the resulting dict has no duplicate keys. -/
theorem c3_amended (eps : List Episode) (e : Episode) :
    dictLookup e.uuid (pocketcasts_by_uuid (eps ++ [e])) = some e ∧
      ((pocketcasts_by_uuid (eps ++ [e])).map Prod.fst).Nodup := by
  constructor
  · have hsplit : pocketcasts_by_uuid (eps ++ [e])
        = dictInsert e.uuid e (pocketcasts_by_uuid eps) := by
      unfold pocketcasts_by_uuid
      rw [List.foldl_append]
      rfl
    rw [hsplit, dictLookup_dictInsert_self]
  · exact keysNodup_pcFold (eps ++ [e]) [] (by simp)

/-- C4: the plan's delete ids, rename ids (empty: the code performs no
renames), download ids, and the kept ids are pairwise disjoint, and their
union is exactly `localIds ∪ remoteIds`. -/
theorem c4_partition (eps : List Episode) (files : List String) :
    (Disjoint (uuids_to_delete eps files) (uuids_to_download eps files) ∧
      Disjoint (uuids_to_delete eps files) (keptIds eps files) ∧
      Disjoint (uuids_to_download eps files) (keptIds eps files) ∧
      Disjoint (renamedIds eps files) (uuids_to_delete eps files) ∧
      Disjoint (renamedIds eps files) (uuids_to_download eps files) ∧
      Disjoint (renamedIds eps files) (keptIds eps files)) ∧
    uuids_to_delete eps files ∪ renamedIds eps files
        ∪ uuids_to_download eps files ∪ keptIds eps files
      = localIds files ∪ remoteIds eps := by
  constructor
  · refine ⟨?_, ?_, ?_, ?_, ?_, ?_⟩
    · rw [Finset.disjoint_left]
      intro a ha hb
      rw [uuids_to_delete, Finset.mem_sdiff] at ha
      rw [uuids_to_download, Finset.mem_sdiff] at hb
      exact hb.2 ha.1
    · rw [Finset.disjoint_left]
      intro a ha hb
      rw [uuids_to_delete, Finset.mem_sdiff] at ha
      rw [keptIds, Finset.mem_inter] at hb
      exact ha.2 hb.1
    · rw [Finset.disjoint_left]
      intro a ha hb
      rw [uuids_to_download, Finset.mem_sdiff] at ha
      rw [keptIds, Finset.mem_inter] at hb
      exact ha.2 hb.2
    · exact Finset.disjoint_empty_left _
    · exact Finset.disjoint_empty_left _
    · exact Finset.disjoint_empty_left _
  · unfold uuids_to_delete uuids_to_download keptIds renamedIds
    ext a
    simp only [Finset.mem_union, Finset.mem_sdiff, Finset.mem_inter,
      Finset.not_mem_empty, or_false]
    tauto

/-- C6 counterexample: the id `ab` is kept (present remotely via `epA`
and locally as `ab.ogg`), and the on-disk name `ab.ogg` differs from the
canonical filename `ab.mp3` computed from the fresh remote item; yet the
plan schedules no rename and the run leaves the directory exactly as it
was, with no file at the canonical name. -/
theorem c6_counterexample :
    "ab" ∈ keptIds [epA] ["ab.ogg"] ∧
      Episode.filename epA = "ab.mp3" ∧
      renamedIds [epA] ["ab.ogg"] = ∅ ∧
      executeDir [epA] fetchOkAll ["ab.ogg"] = ["ab.ogg"] :=
  ⟨by decide, by decide, rfl, by decide⟩

/-- C6 amended: the code never schedules renames; for every kept id the
existing on-disk file survives the run under its old name, even when that
name differs from the canonical filename of the fresh remote item. -/
theorem c6_amended (eps : List Episode) (files : List String)
    (fetch : Episode → Except PyErr Nat) (u f : String)
    (hk : u ∈ keptIds eps files) (hp : (u, f) ∈ ipod_by_uuid files) :
    renamedIds eps files = ∅ ∧ f ∈ executeDir eps fetch files :=
  ⟨rfl, kept_in_executeDir (dict_file_kept (Finset.mem_inter.mp hk).1 hp)⟩

theorem c6_amended_witness :
    ("ab" ∈ keptIds [epA] ["ab.ogg"]
        ∧ ("ab", "ab.ogg") ∈ ipod_by_uuid ["ab.ogg"]) ∧
      (renamedIds [epA] ["ab.ogg"] = ∅ ∧
        "ab.ogg" ∈ executeDir [epA] fetchOkAll ["ab.ogg"]) :=
  ⟨⟨by decide, by decide⟩,
    c6_amended [epA] ["ab.ogg"] fetchOkAll "ab" "ab.ogg" (by decide) (by decide)⟩

/-- C9 counterexample: in the batch `[epDot, epC]` over the single local
file `ab.cd.mp3`, the fetch of `epC` fails, yet the claim's "deletions
already performed in phase 1 remain applied" part is false: the scanner
parses `ab.cd.mp3` to the uuid `ab`, which is absent remotely, so phase 1
unlinks the file — and the successful download of `epDot` (uuid `ab.cd`,
extension `.mp3`, a name ffmpeg writes without complaint) re-creates a
file at that very name during the same run. -/
theorem c9_counterexample :
    fetchFailAa epC = Except.error PyErr.fetchError ∧
      epC ∈ episodes_to_download [epDot, epC] ["ab.cd.mp3"] ∧
      "ab.cd.mp3" ∈ deletedNames [epDot, epC] ["ab.cd.mp3"] ∧
      "ab.cd.mp3" ∈ executeDir [epDot, epC] fetchFailAa ["ab.cd.mp3"] :=
  ⟨rfl, by decide, by decide, by decide⟩

/-- C9 amended: per-item download failure is isolated provided every
remote item is valid.  If the fetch of a scheduled item raises,
`download_episode` returns the explicit outcome `(false, item)` instead
of propagating; every other scheduled item whose download succeeds has
its canonical file present after the run; and the files unlinked in
phase 1 stay gone (no rollback).  Without the validity proviso, the last
part fails: a deleted file name can be re-created in the same run by the
successful download of an item whose invalid uuid collides with it. -/
theorem c9_failure_isolation (eps : List Episode) (files : List String)
    (fetch : Episode → Except PyErr Nat) (x : Episode) (pe : PyErr)
    (hv : ∀ e ∈ eps, ValidEpisode e)
    (_hx : x ∈ episodes_to_download eps files)
    (hf : fetch x = Except.error pe) :
    download_episode fetch x = (false, x) ∧
      (∀ y ∈ episodes_to_download eps files,
        (download_episode fetch y).1 = true →
          y.filename ∈ executeDir eps fetch files) ∧
      ∀ g ∈ deletedNames eps files, g ∉ executeDir eps fetch files := by
  refine ⟨?_, ?_, ?_⟩
  · unfold download_episode
    rw [hf]
  · intro y hy hsucc
    exact written_in_executeDir (mem_writtenNames.mpr ⟨y, hy, hsucc, rfl⟩)
  · intro g hg
    exact deleted_not_in_executeDir hv hg

theorem c9_failure_isolation_witness :
    ((∀ e ∈ [epC, epA], ValidEpisode e) ∧
      epC ∈ episodes_to_download [epC, epA] [] ∧
      fetchFailAa epC = Except.error PyErr.fetchError) ∧
      (download_episode fetchFailAa epC = (false, epC) ∧
        (∀ y ∈ episodes_to_download [epC, epA] [],
          (download_episode fetchFailAa y).1 = true →
            y.filename ∈ executeDir [epC, epA] fetchFailAa []) ∧
        ∀ g ∈ deletedNames [epC, epA] [],
          g ∉ executeDir [epC, epA] fetchFailAa []) :=
  ⟨⟨by decide, by decide, rfl⟩,
    c9_failure_isolation [epC, epA] [] fetchFailAa epC PyErr.fetchError
      (by decide) (by decide) rfl⟩

/-- C5 counterexample: idempotence fails as stated, on two inputs.
First, with two local files `ab.mp3` and `ab.ogg` both parsing to uuid
`ab` and an empty remote list, the first run unlinks only the file the
scanner's dict retained, so the second run still wants a deletion.
Second, with the extensionless remote item `epBad`, the downloaded file
`ab` cannot be parsed back, so the second run schedules the download
again. -/
theorem c5_counterexample :
    uuids_to_delete [] (executeDir [] fetchOkAll ["ab.mp3", "ab.ogg"]) ≠ ∅ ∧
      uuids_to_download [epBad] (executeDir [epBad] fetchOkAll []) ≠ ∅ :=
  ⟨by decide, by decide⟩

/-- C5 amended: reconciliation is idempotent provided every remote item
is valid and no two distinct local files parse to the same uuid: after a
fully successful run, re-scanning the resulting directory and reconciling
against the same remote list yields an empty plan. -/
theorem c5_amended (eps : List Episode) (files : List String)
    (fetch : Episode → Except PyErr Nat)
    (hv : ∀ e ∈ eps, ValidEpisode e)
    (hinj : ∀ f g u, f ∈ files → g ∈ files → parseId f = some u →
      parseId g = some u → f = g)
    (hok : ∀ e, ∃ m, fetch e = Except.ok m) :
    uuids_to_delete eps (executeDir eps fetch files) = ∅ ∧
      uuids_to_download eps (executeDir eps fetch files) = ∅ ∧
      renamedIds eps (executeDir eps fetch files) = ∅ := by
  have h := exec_localIds hv hinj hok
  refine ⟨?_, ?_, rfl⟩
  · rw [uuids_to_delete, h, Finset.sdiff_self]
  · rw [uuids_to_download, h, Finset.sdiff_self]

theorem c5_amended_witness :
    ((∀ e ∈ [epA], ValidEpisode e) ∧
      (∀ f g u, f ∈ ([] : List String) → g ∈ ([] : List String) →
        parseId f = some u → parseId g = some u → f = g) ∧
      (∀ e, ∃ m, fetchOkAll e = Except.ok m)) ∧
      (uuids_to_delete [epA] (executeDir [epA] fetchOkAll []) = ∅ ∧
        uuids_to_download [epA] (executeDir [epA] fetchOkAll []) = ∅ ∧
        renamedIds [epA] (executeDir [epA] fetchOkAll []) = ∅) :=
  ⟨⟨by decide, by simp, fun _ => ⟨0, rfl⟩⟩,
    c5_amended [epA] [] fetchOkAll (by decide) (by simp) (fun _ => ⟨0, rfl⟩)⟩

/-- C2 counterexample: the temp file lives in the system temp directory,
not in the canonical path's directory, and the crash model of
`download_episode` has a reachable crash point (during the transcode,
which writes directly at the canonical path) where a partial file sits at
the canonical path — so a crash does not always leave zero files there. -/
theorem c2_counterexample :
    TMP_DIR ≠ MUSIC_DIR ∧
      ∃ st ∈ dlCrashStates epA "t0", (canonPath epA, false) ∈ st := by
  decide

/-- C2 amended: the fetched bytes are written to a temp file in the
system temp directory (not the canonical path's directory); a crash at
any point before the final transcode step starts leaves no file at the
canonical path, but the transcode writes directly to the canonical path
— there is no atomic move — so a crash during it can leave a partial
file there. -/
theorem c2_amended (e : Episode) (tmp : String)
    (st : List (PathName × Bool)) (hst : st ∈ (dlCrashStates e tmp).take 2) :
    ((canonPath e, false) ∉ st ∧ (canonPath e, true) ∉ st) ∧
      ∃ st' ∈ dlCrashStates e tmp, (canonPath e, false) ∈ st' := by
  constructor
  · have htake : (dlCrashStates e tmp).take 2 = [[], [(tempPath tmp, true)]] := rfl
    rw [htake] at hst
    rcases List.mem_cons.mp hst with h1 | h2
    · subst h1
      exact ⟨List.not_mem_nil _, List.not_mem_nil _⟩
    · have h1 : st = [(tempPath tmp, true)] := by simpa using h2
      subst h1
      constructor
      · intro hmem
        have hdir : MUSIC_DIR = TMP_DIR :=
          congrArg (fun p => p.1.dir) (List.mem_singleton.mp hmem)
        exact absurd hdir (by decide)
      · intro hmem
        have hdir : MUSIC_DIR = TMP_DIR :=
          congrArg (fun p => p.1.dir) (List.mem_singleton.mp hmem)
        exact absurd hdir (by decide)
  · exact ⟨[(tempPath tmp, true), (canonPath e, false)],
      by simp [dlCrashStates], by simp⟩

theorem c2_amended_witness :
    ([] ∈ (dlCrashStates epA "t0").take 2) ∧
      (((canonPath epA, false) ∉ ([] : List (PathName × Bool)) ∧
        (canonPath epA, true) ∉ ([] : List (PathName × Bool))) ∧
        ∃ st' ∈ dlCrashStates epA "t0", (canonPath epA, false) ∈ st') :=
  ⟨by decide, c2_amended epA "t0" [] (by decide)⟩

/-- C10: in the android variant, `download_episode` returns
`(False, episode)` for every episode and every fetch outcome: the move
step's callee `os.path.rename` does not exist on the `os.path` module, so
the lookup raises `AttributeError` inside the try block, the exception is
caught, and the download is reported as failed; no file is ever placed at
the canonical path by this variant. -/
theorem c10_android_always_fails (fetch : Episode → Except PyErr Nat)
    (e : Episode) :
    android_download_episode fetch e = ((false, e), []) := by
  unfold android_download_episode osPathRename
  cases fetch e with
  | error pe => rfl
  | ok n => rfl

end Shuffleupagus
